import Mathlib

/-!
Verification of the tree-hash and multipart-upload core of `backup.py`
(an AWS Glacier multipart upload tool).

The Python source is shallowly embedded:
  * bytes are `List Nat` (each element a byte value),
  * `hashlib.sha256` is the FIPS 180-4 SHA-256 compression, implemented
    executably over `Nat` with explicit `% 2^32`,
  * exceptions become `Except PyErr`,
  * the boto3 glacier client becomes an explicit record of remote
    operations, and each remote call made is recorded in a trace of
    `Event`s so that statements about which remote operations are invoked
    can be proved.
-/

set_option maxRecDepth 8192

namespace Backup

/-- A digest is the list of the 32 bytes produced by SHA-256; intermediate
byte strings use the same representation. -/
abbrev Digest := List Nat

/-! ## SHA-256 (model of `hashlib.sha256`)

`backup.py` delegates all hashing to `hashlib.sha256`; the definitions in
this section are the FIPS 180-4 algorithm that library implements. -/

/-- Rotate a 32-bit word right by `n`. -/
def rotr (n x : Nat) : Nat := ((x >>> n) ||| (x <<< (32 - n))) % 4294967296

/-- Big sigma-0 of SHA-256. -/
def bigS0 (x : Nat) : Nat := rotr 2 x ^^^ rotr 13 x ^^^ rotr 22 x

/-- Big sigma-1 of SHA-256. -/
def bigS1 (x : Nat) : Nat := rotr 6 x ^^^ rotr 11 x ^^^ rotr 25 x

/-- Small sigma-0 of SHA-256. -/
def smallS0 (x : Nat) : Nat := rotr 7 x ^^^ rotr 18 x ^^^ (x >>> 3)

/-- Small sigma-1 of SHA-256. -/
def smallS1 (x : Nat) : Nat := rotr 17 x ^^^ rotr 19 x ^^^ (x >>> 10)

/-- The SHA-256 choose function (with bitwise not as xor against the
32-bit all-ones mask). -/
def chf (x y z : Nat) : Nat := (x &&& y) ^^^ ((x ^^^ 4294967295) &&& z)

/-- The SHA-256 majority function. -/
def majf (x y z : Nat) : Nat := (x &&& y) ^^^ (x &&& z) ^^^ (y &&& z)

/-- The 64 SHA-256 round constants of FIPS 180-4, written in decimal. -/
def roundK : List Nat :=
  [1116352408, 1899447441, 3049323471, 3921009573, 961987163, 1508970993,
   2453635748, 2870763221, 3624381080, 310598401, 607225278, 1426881987,
   1925078388, 2162078206, 2614888103, 3248222580, 3835390401, 4022224774,
   264347078, 604807628, 770255983, 1249150122, 1555081692, 1996064986,
   2554220882, 2821834349, 2952996808, 3210313671, 3336571891, 3584528711,
   113926993, 338241895, 666307205, 773529912, 1294757372, 1396182291,
   1695183700, 1986661051, 2177026350, 2456956037, 2730485921, 2820302411,
   3259730800, 3345764771, 3516065817, 3600352804, 4094571909, 275423344,
   430227734, 506948616, 659060556, 883997877, 958139571, 1322822218,
   1537002063, 1747873779, 1955562222, 2024104815, 2227730452, 2361852424,
   2428436474, 2756734187, 3204031479, 3329325298]

/-- The initial SHA-256 hash state of FIPS 180-4, written in decimal. -/
def initH : List Nat :=
  [1779033703, 3144134277, 1013904242, 2773480762,
   1359893119, 2600822924, 528734635, 1541459225]

/-- Group a byte list into big-endian 32-bit words. -/
def toWords : List Nat → List Nat
  | b0 :: b1 :: b2 :: b3 :: rest => (((b0 * 256 + b1) * 256 + b2) * 256 + b3) :: toWords rest
  | _ => []

/-- Extend the 16 words of a block to the 64-word message schedule; the
accumulator holds, most recent first, the words produced so far. -/
def extendWords : Nat → List Nat → List Nat
  | 0, acc => acc.reverse
  | n + 1, acc =>
    let x := (acc.getD 15 0 + smallS0 (acc.getD 14 0) + acc.getD 6 0 + smallS1 (acc.getD 1 0))
      % 4294967296
    extendWords n (x :: acc)

/-- One SHA-256 round on the working state `[a,b,c,d,e,f,g,h]`. -/
def roundStep (st : List Nat) (k : Nat) (w : Nat) : List Nat :=
  match st with
  | [a, b, c, d, e, f, g, h] =>
    let t1 := (h + bigS1 e + chf e f g + k + w) % 4294967296
    let t2 := (bigS0 a + majf a b c) % 4294967296
    [(t1 + t2) % 4294967296, a, b, c, (d + t1) % 4294967296, e, f, g]
  | other => other

/-- Compress one 64-byte block into the running hash state. -/
def compressBlock (hs : List Nat) (block : List Nat) : List Nat :=
  let ws := extendWords 48 (toWords block).reverse
  let st := (roundK.zip ws).foldl (fun s p => roundStep s p.1 p.2) hs
  (hs.zip st).map fun p => (p.1 + p.2) % 4294967296

/-- The 8-byte big-endian encoding of a 64-bit length. -/
def beBytes8 (n : Nat) : List Nat :=
  [(n >>> 56) % 256, (n >>> 48) % 256, (n >>> 40) % 256, (n >>> 32) % 256,
   (n >>> 24) % 256, (n >>> 16) % 256, (n >>> 8) % 256, n % 256]

/-- SHA-256 padding: a 0x80 byte, zeros to 56 mod 64, and the bit length. -/
def padMessage (msg : List Nat) : List Nat :=
  msg ++ 128 :: (List.replicate ((119 - msg.length % 64) % 64) 0 ++ beBytes8 (8 * msg.length))

/-- Split a list into chunks of `n` elements, the last one possibly
shorter; structurally recursive on a fuel argument so that it evaluates
inside the kernel.  This is the chunking shape of the Python idiom
`iter(partial(stream.read, n), b'')` used throughout `backup.py`. -/
def chunksGo (fuel n : Nat) (l : List α) : List (List α) :=
  match fuel, l with
  | _, [] => []
  | 0, _ :: _ => []
  | fuel + 1, x :: xs => (x :: xs).take n :: chunksGo fuel n ((x :: xs).drop n)

/-- Chunking with the fuel fixed to the list length (enough whenever
`0 < n`); reading chunks of size `0` yields no chunks, matching
`stream.read(0) == b''` ending the Python iteration at once. -/
def chunksList (n : Nat) (l : List α) : List (List α) :=
  if n = 0 then [] else chunksGo l.length n l

/-- SHA-256 of a byte string, as the 32 digest bytes. -/
def sha256 (msg : List Nat) : Digest :=
  let blocks := chunksList 64 (padMessage msg)
  let hs := blocks.foldl compressBlock initH
  (hs.map fun w => [(w >>> 24) % 256, (w >>> 16) % 256, (w >>> 8) % 256, w % 256]).flatten

/-- Lowercase hex character of a value below 16, as `"%x" % n` produces. -/
def hexChar (n : Nat) : Char := if n < 10 then Char.ofNat (48 + n) else Char.ofNat (87 + n)

/-- Two hex characters of one byte. -/
def hexByte (b : Nat) : String := String.mk [hexChar (b / 16), hexChar (b % 16)]

/-- Model of `.hexdigest()` on a digest: the lowercase hex string of its
bytes. -/
def hexDigest (d : Digest) : String := String.join (d.map hexByte)

/-! ## Errors

Python exceptions raised by `backup.py` (directly or through the
libraries it calls).  The constructors `emptyInput` and
`verificationMismatch` are the error kinds the specification designates
as `EmptyInput` and `VerificationMismatch`; they are included so that
statements about those kinds can be made, and no code path of the
embedding produces them. -/

inductive PyErr where
  /-- Model of `raise ValueError(msg)`. -/
  | valueError (msg : String)
  /-- An out-of-bounds list subscript, as in `output[0]` on an empty list. -/
  | indexError
  /-- Model of `NameError`: a name that is not bound in any enclosing scope. -/
  | nameError (n : String)
  /-- Model of `FileNotFoundError` from `open` on a missing path. -/
  | fileNotFound (p : String)
  /-- A failure returned by a remote boto3 glacier operation. -/
  | remoteError (msg : String)
  /-- The error kind the spec designates as `EmptyInput` (never raised by
  the code). -/
  | emptyInput
  /-- The error kind the spec designates as `VerificationMismatch` (never
  raised by the code). -/
  | verificationMismatch
deriving DecidableEq

/-! ## Hash Combiner (`combine_sha256`, backup.py lines 196-206) -/

/-- One level of the `while` loop of `combine_sha256`: adjacent pairs
`output[::2]`/`output[1::2]` are hashed together left-to-right, and for an
odd length the unpaired last element is appended unchanged. -/
def reduceLevel : List Digest → List Digest
  | [] => []
  | [x] => [x]
  | a :: b :: rest => sha256 (a ++ b) :: reduceLevel rest

/-- The `while len(output) > 1` loop of `combine_sha256`, structurally
recursive on a fuel argument (the level length at least halves each
round, so fuel equal to the initial length always suffices). -/
def combineGo : Nat → List Digest → List Digest
  | 0, l => l
  | n + 1, l => if l.length ≤ 1 then l else combineGo n (reduceLevel l)

/-- The value of `output` after the `while` loop of `combine_sha256`. -/
def combineLevels (l : List Digest) : List Digest := combineGo l.length l

/-- Embedding of `combine_sha256`: run the pairwise reduction loop and
return `output[0]`, which on an empty input raises `IndexError`. -/
def combine_sha256 (hashlist : List Digest) : Except PyErr Digest :=
  match combineLevels hashlist with
  | [] => .error .indexError
  | d :: _ => .ok d

/-- The root digest a nonempty hash list combines to (total helper for
stating lemmas; `combine_sha256` returns `.ok` of it on nonempty input). -/
def rootD (l : List Digest) : Digest := (combineLevels l).headD []

/-! ## Hasher (`sha256tree` and `chunk_sha256`, backup.py lines 165-194) -/

/-- Embedding of `chunk_sha256`: the SHA-256 of each 1 MiB (2^20-byte)
chunk of the stream, in order. -/
def chunk_sha256 (bstream : List Nat) : List Digest :=
  (chunksList 1048576 bstream).map sha256

/-- The body of `sha256tree` once the input is a byte stream: hash the
1 MiB chunks and fold them with the combiner. -/
def sha256treeBytes (b : List Nat) : Except PyErr Digest :=
  combine_sha256 (chunk_sha256 b)

/-- The tree hash of a nonempty byte string (total helper: `sha256treeBytes`
returns `.ok` of it on nonempty input). -/
def treeHashD (b : List Nat) : Digest := rootD (chunk_sha256 b)

/-- A Python runtime value passed to `sha256tree`: the three accepted
forms (`io.BufferedIOBase` stream, `bytes` buffer, `str` path) and
`other`, standing for a value of any further runtime type. -/
inductive PyValue where
  | stream (b : List Nat)
  | bytes (b : List Nat)
  | str (p : String)
  | other (descr : String)

/-- Embedding of `sha256tree`.  The file system is an explicit map from
paths to contents; the `str` branch opens the path and recurses on the
resulting stream (inlined here, since the stream branch is
`sha256treeBytes`), and any unsupported runtime type raises
`ValueError('sha256 tree hash expects a byte stream or string')`. -/
def sha256tree (fs : String → Option (List Nat)) : PyValue → Except PyErr Digest
  | .stream b => sha256treeBytes b
  | .bytes b => sha256treeBytes b
  | .str p =>
    match fs p with
    | some c => sha256treeBytes c
    | none => .error (.fileNotFound p)
  | .other _ => .error (.valueError "sha256 tree hash expects a byte stream or string")

/-- The error the spec designates as `InvalidSourceKind`: the `ValueError`
raised by the final branch of `sha256tree`. -/
def InvalidSourceKind : PyErr :=
  .valueError "sha256 tree hash expects a byte stream or string"

/-! ## Remote operations and the upload orchestration
(`upload_file`, `abort_uploads`, `upload_parts`, backup.py lines 94-162) -/

/-- The wire byte range `'bytes %s-%s/*' % (start, end-1)` of
`upload_parts`. -/
def wireRange (start stop : Nat) : String :=
  "bytes " ++ Nat.repr start ++ "-" ++ Nat.repr (stop - 1) ++ "/*"

/-- One remote glacier call made by the embedding, recorded in order in a
trace. -/
inductive Event where
  | initiateCall (vault desc : String) (psize : Nat)
  | uploadPartCall (vault muid checksum range : String) (body : List Nat)
  | completeCall (vault muid checksum : String) (size : Nat)
  | abortCall (vault muid : String)
  | listCall (vault : String)
deriving DecidableEq

/-- Whether an event is an abort-multipart-upload call. -/
def Event.isAbort : Event → Bool
  | .abortCall _ _ => true
  | _ => false

/-- The byte ranges of the upload-part calls of a trace, in order. -/
def rangesOf (evs : List Event) : List String :=
  evs.filterMap fun e =>
    match e with
    | .uploadPartCall _ _ _ r _ => some r
    | _ => none

/-- The remote glacier operations, as deterministic functions of the call
arguments; a failing remote call is an `.error` result, which the
embedding propagates exactly where the Python exception would. -/
structure Client where
  initiate : String → String → Nat → Except PyErr String
  uploadPart : String → String → String → String → List Nat → Except PyErr String
  complete : String → String → String → Nat → Except PyErr String

/-- Whether an `Except` result is a success. -/
def isOkE {α : Type} (e : Except PyErr α) : Bool :=
  match e with
  | .ok _ => true
  | .error _ => false

instance {ε α : Type} [DecidableEq ε] [DecidableEq α] : DecidableEq (Except ε α) := by
  intro a b
  cases a <;> cases b
  case error.error e1 e2 =>
    exact if h : e1 = e2 then .isTrue (by rw [h]) else .isFalse (by simp [h])
  case ok.ok a1 a2 =>
    exact if h : a1 = a2 then .isTrue (by rw [h]) else .isFalse (by simp [h])
  case error.ok e1 a2 => exact .isFalse (by simp)
  case ok.error a1 e2 => exact .isFalse (by simp)

/-- The `for partno, chunk in zip(count(), iter(partial(f.read, psize), b''))`
loop of `upload_parts`: read `psize` bytes, tree-hash the chunk, invoke
the remote upload-part call with the hash hex and the wire range, and
collect the hash; a failing call aborts the rest of the loop with its
error.  Structurally recursive on a fuel argument (each iteration
consumes at least one byte when `0 < psize`, so the content length is
enough fuel). -/
def uploadLoop (client : Client) (vault muid : String) (psize : Nat) :
    Nat → Nat → List Nat → Except PyErr (List Digest) × List Event
  | _, _, [] => (.ok [], [])
  | 0, _, _ => (.ok [], [])
  | fuel + 1, partno, rest =>
    let chunk := rest.take psize
    let start := partno * psize
    let stop := start + chunk.length
    match sha256treeBytes chunk with
    | .error e => (.error e, [])
    | .ok d =>
      let ev := Event.uploadPartCall vault muid (hexDigest d) (wireRange start stop) chunk
      match client.uploadPart vault muid (hexDigest d) (wireRange start stop) chunk with
      | .error e => (.error e, [ev])
      | .ok _ =>
        let r := uploadLoop client vault muid psize fuel (partno + 1) (rest.drop psize)
        (match r.1 with
         | .error e => .error e
         | .ok ds => .ok (d :: ds), ev :: r.2)

/-- Embedding of `upload_parts` (the file name is replaced by the file's
byte content; `total_size` only feeds the progress bar and is dropped).
With `psize = 0` the first `f.read(0)` returns `b''` and the loop never
runs. -/
def upload_parts (client : Client) (vault muid : String) (psize : Nat)
    (content : List Nat) : Except PyErr (List Digest) × List Event :=
  if psize = 0 then (.ok [], [])
  else uploadLoop client vault muid psize content.length 0 content

/-- Embedding of `upload_file` (the session/profile/region plumbing that
builds the boto3 client is outside the core and becomes the explicit
`client`; the file name is replaced by the file content, whose length is
`os.stat(fname).st_size`).  Initiate, upload the parts, fold the
collected hashes with `combine_sha256`, and complete with the combined
hex checksum and the total size; every error propagates as the Python
exception would, and no other control flow exists. -/
def upload_file (client : Client) (vault desc : String) (psize : Nat)
    (content : List Nat) : Except PyErr String × List Event :=
  let fsize := content.length
  let evInit := Event.initiateCall vault desc psize
  match client.initiate vault desc psize with
  | .error e => (.error e, [evInit])
  | .ok muid =>
    let r := upload_parts client vault muid psize content
    match r.1 with
    | .error e => (.error e, evInit :: r.2)
    | .ok hashlist =>
      match combine_sha256 hashlist with
      | .error e => (.error e, evInit :: r.2)
      | .ok totalSha =>
        let evC := Event.completeCall vault muid (hexDigest totalSha) fsize
        match client.complete vault muid (hexDigest totalSha) fsize with
        | .error e => (.error e, evInit :: (r.2 ++ [evC]))
        | .ok aid => (.ok aid, evInit :: (r.2 ++ [evC]))

/-- The names bound at module scope of backup.py: the imports and the
module-level assignments and function definitions.  Notably neither
`client` nor `vault` is among them. -/
def moduleGlobals : List String :=
  ["logging", "ArgumentParser", "DescFormatter", "ConfigParser", "io", "os",
   "hashlib", "partial", "count", "boto3", "tqdm", "tsv", "fh", "formatter",
   "full_log", "archive_log", "get_options", "main", "upload_file",
   "abort_uploads", "upload_parts", "sha256tree", "chunk_sha256",
   "combine_sha256"]

/-- Python name resolution for a name that is free in a function body:
module scope is consulted, and an unbound name raises `NameError`. -/
def pyLookupGlobal (n : String) : Except PyErr Unit :=
  if n ∈ moduleGlobals then .ok () else .error (.nameError n)

/-- Embedding of `abort_uploads` (backup.py lines 132-136).  Its body's
first expression `client.list_multipart_uploads(vaultName=vault)`
resolves the free name `client`, which is bound in no enclosing scope, so
the call raises `NameError` before any remote operation is made (the
source itself marks this with `# XXX Need to get the client properly`).
The success branch is unreachable because `"client" ∉ moduleGlobals`. -/
def abort_uploads : Except PyErr (List Event) :=
  match pyLookupGlobal "client" with
  | .error e => .error e
  | .ok _ => .ok []

/-! ## Combiner lemmas -/

theorem reduceLevel_cons2 (a b : Digest) (t : List Digest) :
    reduceLevel (a :: b :: t) = sha256 (a ++ b) :: reduceLevel t := rfl

theorem length_reduceLevel : ∀ l : List Digest, (reduceLevel l).length = (l.length + 1) / 2
  | [] => rfl
  | [_] => by simp [reduceLevel]
  | a :: b :: t => by
    rw [reduceLevel_cons2]
    simp only [List.length_cons, length_reduceLevel t]
    omega

theorem reduceLevel_ne_nil : ∀ {l : List Digest}, l ≠ [] → reduceLevel l ≠ []
  | [], h => absurd rfl h
  | [_], _ => by simp [reduceLevel]
  | _ :: _ :: _, _ => by rw [reduceLevel_cons2]; simp

theorem reduceLevel_append : ∀ (a b : List Digest), a.length % 2 = 0 →
    reduceLevel (a ++ b) = reduceLevel a ++ reduceLevel b
  | [], _, _ => rfl
  | [_], _, h => by simp at h
  | x :: y :: t, b, h => by
    have ih := reduceLevel_append t b (by simp [List.length_cons] at h; omega)
    simp only [List.cons_append, reduceLevel_cons2, ih]

theorem reduceLevel_getLast_odd : ∀ (l : List Digest), l.length % 2 = 1 →
    (reduceLevel l).getLast? = l.getLast?
  | [], h => by simp at h
  | [_], _ => rfl
  | a :: b :: t, h => by
    have ht : t ≠ [] := by
      intro hh
      subst hh
      simp at h
    have ih := reduceLevel_getLast_odd t (by simp [List.length_cons] at h ⊢; omega)
    obtain ⟨c, cs, hc⟩ := List.exists_cons_of_ne_nil (reduceLevel_ne_nil ht)
    obtain ⟨d, ds, rfl⟩ := List.exists_cons_of_ne_nil ht
    rw [reduceLevel_cons2, hc, List.getLast?_cons_cons, ← hc, ih,
      List.getLast?_cons_cons, List.getLast?_cons_cons]

theorem combineGo_succ : ∀ (n : Nat) (l : List Digest), l.length ≤ n + 1 →
    combineGo (n + 1) l = combineGo n l
  | 0, l, h => by simp [combineGo, h]
  | n + 1, l, h => by
    by_cases h1 : l.length ≤ 1
    · simp [combineGo, h1]
    · have hred : (reduceLevel l).length ≤ n + 1 := by rw [length_reduceLevel]; omega
      simp only [combineGo, if_neg h1]
      exact combineGo_succ n (reduceLevel l) hred

theorem combineGo_of_le : ∀ (n : Nat) (l : List Digest), l.length ≤ n + 1 →
    combineGo n l = combineLevels l
  | 0, l, h => by
    match l, h with
    | [], _ => rfl
    | [x], _ => rfl
    | a :: b :: t, h => simp at h
  | n + 1, l, h => by
    by_cases h1 : l.length ≤ n + 1
    · rw [combineGo_succ n l h1]
      exact combineGo_of_le n l h1
    · have hl : l.length = n + 2 := by omega
      unfold combineLevels
      rw [hl]
      exact (combineGo_succ (n + 1) l (by omega)).symm

theorem combineLevels_step (l : List Digest) :
    combineLevels l = if l.length ≤ 1 then l else combineLevels (reduceLevel l) := by
  by_cases h1 : l.length ≤ 1
  · rw [if_pos h1]
    match l, h1 with
    | [], _ => rfl
    | [x], _ => rfl
    | a :: b :: t, h1 => simp at h1
  · rw [if_neg h1]
    obtain ⟨m, hm⟩ : ∃ m, l.length = m + 2 := ⟨l.length - 2, by omega⟩
    unfold combineLevels
    rw [hm]
    simp only [combineGo, if_neg h1]
    exact combineGo_of_le (m + 1) (reduceLevel l) (by rw [length_reduceLevel]; omega)

theorem combineLevels_exists_single (l : List Digest) (h : l ≠ []) :
    ∃ d, combineLevels l = [d] := by
  by_cases h1 : l.length ≤ 1
  · obtain ⟨x, rfl⟩ : ∃ x, l = [x] := by
      match l, h, h1 with
      | [], h, _ => exact absurd rfl h
      | [x], _, _ => exact ⟨x, rfl⟩
      | a :: b :: t, _, h1 => simp at h1
    exact ⟨x, rfl⟩
  · rw [combineLevels_step, if_neg h1]
    exact combineLevels_exists_single (reduceLevel l) (reduceLevel_ne_nil h)
termination_by l.length
decreasing_by rw [length_reduceLevel]; omega

theorem combine_ok (l : List Digest) (h : l ≠ []) : combine_sha256 l = .ok (rootD l) := by
  obtain ⟨d, hd⟩ := combineLevels_exists_single l h
  unfold combine_sha256 rootD
  rw [hd]
  rfl

theorem rootD_reduceLevel (l : List Digest) (h : l ≠ []) :
    rootD (reduceLevel l) = rootD l := by
  by_cases h1 : l.length ≤ 1
  · obtain ⟨x, rfl⟩ : ∃ x, l = [x] := by
      match l, h, h1 with
      | [], h, _ => exact absurd rfl h
      | [x], _, _ => exact ⟨x, rfl⟩
      | a :: b :: t, _, h1 => simp at h1
    rfl
  · unfold rootD
    conv_rhs => rw [combineLevels_step l]
    rw [if_neg h1]

/-- Iterated level reduction (the first `j` rounds of the combiner's
`while` loop). -/
def reduceIter : Nat → List Digest → List Digest
  | 0, l => l
  | j + 1, l => reduceIter j (reduceLevel l)

theorem reduceIter_ne_nil : ∀ (j : Nat) {l : List Digest}, l ≠ [] → reduceIter j l ≠ []
  | 0, _, h => h
  | j + 1, _, h => reduceIter_ne_nil j (reduceLevel_ne_nil h)

theorem rootD_reduceIter : ∀ (j : Nat) (l : List Digest), l ≠ [] →
    rootD (reduceIter j l) = rootD l
  | 0, _, _ => rfl
  | j + 1, l, h => by
    show rootD (reduceIter j (reduceLevel l)) = rootD l
    rw [rootD_reduceIter j (reduceLevel l) (reduceLevel_ne_nil h), rootD_reduceLevel l h]

theorem reduceIter_append : ∀ (j : Nat) (a b : List Digest), 2 ^ j ∣ a.length →
    reduceIter j (a ++ b) = reduceIter j a ++ reduceIter j b
  | 0, _, _, _ => rfl
  | j + 1, a, b, h => by
    obtain ⟨k, hk⟩ := h
    have hk2 : a.length = 2 * (2 ^ j * k) := by rw [hk, pow_succ]; ring
    have heven : a.length % 2 = 0 := by omega
    show reduceIter j (reduceLevel (a ++ b)) = _
    rw [reduceLevel_append a b heven]
    refine reduceIter_append j _ _ ?_
    rw [length_reduceLevel]
    exact ⟨k, by omega⟩

theorem reduceIter_of_le : ∀ (j : Nat) (l : List Digest), l ≠ [] → l.length ≤ 2 ^ j →
    reduceIter j l = [rootD l]
  | 0, l, h, hle => by
    obtain ⟨x, rfl⟩ : ∃ x, l = [x] := by
      match l, h, hle with
      | [], h, _ => exact absurd rfl h
      | [x], _, _ => exact ⟨x, rfl⟩
      | a :: b :: t, _, hle => simp [pow_zero] at hle
    rfl
  | j + 1, l, h, hle => by
    have hlen : (reduceLevel l).length ≤ 2 ^ j := by
      rw [length_reduceLevel]
      rw [pow_succ] at hle
      omega
    show reduceIter j (reduceLevel l) = [rootD l]
    rw [reduceIter_of_le j (reduceLevel l) (reduceLevel_ne_nil h) hlen, rootD_reduceLevel l h]

/-! ## Chunking lemmas -/

theorem chunksList_nil (n : Nat) : chunksList n ([] : List α) = [] := by
  by_cases h : n = 0 <;> simp [chunksList, chunksGo, h]

theorem chunksGo_congr : ∀ (f1 f2 n : Nat) (l : List α), 0 < n →
    l.length ≤ f1 → l.length ≤ f2 → chunksGo f1 n l = chunksGo f2 n l
  | f1, f2, n, [], _, _, _ => by cases f1 <;> cases f2 <;> rfl
  | 0, _, _, x :: xs, _, h1, _ => by simp at h1
  | _ + 1, 0, _, x :: xs, _, _, h2 => by simp at h2
  | f1 + 1, f2 + 1, n, x :: xs, hn, h1, h2 => by
    simp only [chunksGo]
    congr 1
    apply chunksGo_congr f1 f2 n _ hn <;>
      simp only [List.length_drop, List.length_cons] at * <;> omega

theorem chunksList_cons (n : Nat) (hn : 0 < n) (l : List α) (hl : l ≠ []) :
    chunksList n l = l.take n :: chunksList n (l.drop n) := by
  obtain ⟨x, xs, rfl⟩ := List.exists_cons_of_ne_nil hl
  unfold chunksList
  rw [if_neg (by omega), if_neg (by omega)]
  simp only [List.length_cons, chunksGo]
  congr 1
  apply chunksGo_congr _ _ n _ hn <;> simp only [List.length_drop, List.length_cons] <;> omega

theorem chunksList_ne_nil (n : Nat) (hn : 0 < n) (l : List α) (hl : l ≠ []) :
    chunksList n l ≠ [] := by
  rw [chunksList_cons n hn l hl]
  simp

theorem chunksList_of_le (n : Nat) (hn : 0 < n) (l : List α) (hl : l ≠ [])
    (hle : l.length ≤ n) : chunksList n l = [l] := by
  rw [chunksList_cons n hn l hl, List.take_of_length_le hle, List.drop_eq_nil_of_le hle,
    chunksList_nil]

theorem chunksList_map (f : α → β) (n : Nat) (l : List α) :
    chunksList n (l.map f) = (chunksList n l).map (List.map f) := by
  by_cases hn : n = 0
  · simp [chunksList, hn]
  · by_cases hl : l = []
    · subst hl
      simp [chunksList_nil]
    · have hn' : 0 < n := by omega
      rw [chunksList_cons n hn' (l.map f) (by simpa using hl), chunksList_cons n hn' l hl]
      rw [← List.map_take, ← List.map_drop, List.map_cons]
      congr 1
      exact chunksList_map f n (l.drop n)
termination_by l.length
decreasing_by
  simp only [List.length_drop]
  have := List.length_pos.mpr hl
  omega

theorem take_chunksList (b : Nat) (hb : 0 < b) : ∀ (a : Nat) (l : List α),
    (chunksList b l).take a = chunksList b (l.take (a * b))
  | 0, l => by simp [chunksList_nil]
  | a + 1, l => by
    by_cases hl : l = []
    · subst hl
      simp [chunksList_nil]
    · rw [chunksList_cons b hb l hl, List.take_succ_cons]
      have hne : l.take ((a + 1) * b) ≠ [] := by
        have hpos : 0 < l.length := List.length_pos.mpr hl
        have hab : 0 < (a + 1) * b := by positivity
        intro hc
        have hlen : (l.take ((a + 1) * b)).length = 0 := by rw [hc]; rfl
        rw [List.length_take] at hlen
        have hmin : 0 < min ((a + 1) * b) l.length := lt_min hab hpos
        omega
      rw [chunksList_cons b hb _ hne, List.take_take, List.drop_take]
      have h1 : b ⊓ ((a + 1) * b) = b := by
        have : b ≤ (a + 1) * b := by nlinarith
        omega
      have h2 : (a + 1) * b - b = a * b := by ring_nf; omega
      rw [h1, h2]
      congr 1
      exact take_chunksList b hb a (l.drop b)

theorem drop_chunksList (b : Nat) (hb : 0 < b) : ∀ (a : Nat) (l : List α),
    (chunksList b l).drop a = chunksList b (l.drop (a * b))
  | 0, l => by simp
  | a + 1, l => by
    by_cases hl : l = []
    · subst hl
      simp [chunksList_nil]
    · rw [chunksList_cons b hb l hl, List.drop_succ_cons,
        drop_chunksList b hb a (l.drop b), List.drop_drop]
      congr 1
      ring_nf

theorem chunksList_chunksList (a b : Nat) (hb : 0 < b) (l : List α) :
    chunksList a (chunksList b l) = (chunksList (a * b) l).map (chunksList b) := by
  by_cases ha : a = 0
  · simp [ha, chunksList]
  · by_cases hl : l = []
    · subst hl
      simp [chunksList_nil]
    · have ha' : 0 < a := by omega
      have hab : 0 < a * b := by positivity
      have hbl : chunksList b l ≠ [] := chunksList_ne_nil b hb l hl
      rw [chunksList_cons a ha' _ hbl, take_chunksList b hb a l, drop_chunksList b hb a l,
        chunksList_chunksList a b hb (l.drop (a * b)),
        chunksList_cons (a * b) hab l hl, List.map_cons]
termination_by l.length
decreasing_by
  simp only [List.length_drop]
  have h1 := List.length_pos.mpr hl
  have h2 : 0 < a * b := by positivity
  omega

/-! ## The tree-hash refinement: combining per-part tree hashes equals the
whole tree hash, for any part size that is a power-of-two multiple of the
1 MiB chunk size. -/

theorem reduceIter_chunks (j : Nat) (l : List Digest) (hl : l ≠ []) :
    reduceIter j l = (chunksList (2 ^ j) l).map rootD := by
  have hj : (0 : Nat) < 2 ^ j := pow_pos (by norm_num) j
  by_cases hle : l.length ≤ 2 ^ j
  · rw [chunksList_of_le _ hj l hl hle, reduceIter_of_le j l hl hle]
    rfl
  · have hpos : 0 < l.length := List.length_pos.mpr hl
    have hTake : (l.take (2 ^ j)).length = 2 ^ j := by rw [List.length_take]; omega
    have hTakeNe : l.take (2 ^ j) ≠ [] := by
      intro hc
      rw [hc] at hTake
      simp at hTake
      omega
    have hDropLen : (l.drop (2 ^ j)).length = l.length - 2 ^ j := List.length_drop _ _
    have hDropNe : l.drop (2 ^ j) ≠ [] := by
      intro hc
      rw [hc] at hDropLen
      simp at hDropLen
      omega
    calc reduceIter j l
        = reduceIter j (l.take (2 ^ j) ++ l.drop (2 ^ j)) := by rw [List.take_append_drop]
      _ = reduceIter j (l.take (2 ^ j)) ++ reduceIter j (l.drop (2 ^ j)) :=
          reduceIter_append j _ _ ⟨1, by rw [hTake, mul_one]⟩
      _ = [rootD (l.take (2 ^ j))] ++ (chunksList (2 ^ j) (l.drop (2 ^ j))).map rootD := by
          rw [reduceIter_of_le j _ hTakeNe (le_of_eq hTake),
            reduceIter_chunks j (l.drop (2 ^ j)) hDropNe]
      _ = (chunksList (2 ^ j) l).map rootD := by
          rw [chunksList_cons _ hj l hl, List.map_cons, List.singleton_append]
termination_by l.length
decreasing_by
  simp only [List.length_drop]
  have h1 := List.length_pos.mpr hl
  have h2 : (0 : Nat) < 2 ^ j := pow_pos (by norm_num) j
  omega

theorem rootD_map_chunks (j : Nat) (l : List Digest) (hl : l ≠ []) :
    rootD ((chunksList (2 ^ j) l).map rootD) = rootD l := by
  rw [← reduceIter_chunks j l hl]
  exact rootD_reduceIter j l hl

theorem parts_combine_root (j : Nat) (content : List Nat) (hc : content ≠ []) :
    rootD ((chunksList (2 ^ 20 * 2 ^ j) content).map treeHashD) = treeHashD content := by
  have h20 : (0 : Nat) < 1048576 := by norm_num
  have hch : chunksList 1048576 content ≠ [] := chunksList_ne_nil _ h20 content hc
  have hleaves : chunk_sha256 content ≠ [] := by
    unfold chunk_sha256
    simpa using hch
  have hsz : 2 ^ 20 * 2 ^ j = 2 ^ j * 1048576 := by rw [mul_comm]; norm_num
  have hfun : treeHashD = (fun l2 => rootD (l2.map sha256)) ∘ chunksList 1048576 := by
    funext b
    rfl
  have hmaps : (chunksList (2 ^ 20 * 2 ^ j) content).map treeHashD
      = (chunksList (2 ^ j) (chunk_sha256 content)).map rootD := by
    calc (chunksList (2 ^ 20 * 2 ^ j) content).map treeHashD
        = (chunksList (2 ^ j * 1048576) content).map
            ((fun l2 => rootD (l2.map sha256)) ∘ chunksList 1048576) := by rw [hsz, hfun]
      _ = ((chunksList (2 ^ j * 1048576) content).map (chunksList 1048576)).map
            (fun l2 => rootD (l2.map sha256)) := by rw [List.map_map]
      _ = (chunksList (2 ^ j) (chunksList 1048576 content)).map
            (fun l2 => rootD (l2.map sha256)) := by
            rw [chunksList_chunksList (2 ^ j) 1048576 h20 content]
      _ = ((chunksList (2 ^ j) (chunksList 1048576 content)).map (List.map sha256)).map
            rootD := by rw [List.map_map]; rfl
      _ = (chunksList (2 ^ j) ((chunksList 1048576 content).map sha256)).map rootD := by
            rw [chunksList_map]
      _ = (chunksList (2 ^ j) (chunk_sha256 content)).map rootD := rfl
  rw [hmaps]
  exact rootD_map_chunks j (chunk_sha256 content) hleaves

/-! ## Upload loop lemmas -/

theorem sha256treeBytes_ok (b : List Nat) (hb : b ≠ []) :
    sha256treeBytes b = .ok (treeHashD b) := by
  have hne : chunk_sha256 b ≠ [] := by
    unfold chunk_sha256
    simpa using chunksList_ne_nil 1048576 (by norm_num) b hb
  unfold sha256treeBytes treeHashD
  exact combine_ok _ hne

theorem isOkE_exists {α : Type} {e : Except PyErr α} (h : isOkE e = true) : ∃ a, e = .ok a := by
  cases e with
  | ok a => exact ⟨a, rfl⟩
  | error ex => simp [isOkE] at h

theorem take_ne_nil_of_pos {α : Type} (n : Nat) (hn : 0 < n) (l : List α) (hl : l ≠ []) :
    l.take n ≠ [] := by
  have hpos : 0 < l.length := List.length_pos.mpr hl
  intro hc
  have hlen := congrArg List.length hc
  rw [List.length_take] at hlen
  simp only [List.length_nil] at hlen
  have hmin : 0 < min n l.length := lt_min hn hpos
  omega

theorem uploadLoop_ok (client : Client) (vault muid : String) (psize : Nat) (hp : 0 < psize)
    (hok : ∀ v m c r b2, isOkE (client.uploadPart v m c r b2) = true) :
    ∀ (fuel : Nat) (rest : List Nat) (partno : Nat), rest.length ≤ fuel →
      (uploadLoop client vault muid psize fuel partno rest).1
        = .ok ((chunksList psize rest).map treeHashD)
  | fuel, [], _, _ => by cases fuel <;> simp [uploadLoop, chunksList_nil]
  | 0, x :: xs, _, h => by simp at h
  | fuel + 1, x :: xs, partno, h => by
    have hchunkne : (x :: xs).take psize ≠ [] :=
      take_ne_nil_of_pos psize hp (x :: xs) (by simp)
    obtain ⟨ck, hck⟩ := isOkE_exists (hok vault muid
      (hexDigest (treeHashD ((x :: xs).take psize)))
      (wireRange (partno * psize) (partno * psize + ((x :: xs).take psize).length))
      ((x :: xs).take psize))
    have hrec := uploadLoop_ok client vault muid psize hp hok fuel
      ((x :: xs).drop psize) (partno + 1)
      (by simp only [List.length_drop, List.length_cons] at *; omega)
    simp only [uploadLoop, sha256treeBytes_ok _ hchunkne, hck, hrec]
    rw [chunksList_cons psize hp (x :: xs) (by simp), List.map_cons]

theorem upload_parts_ok (client : Client) (vault muid : String) (psize : Nat) (hp : 0 < psize)
    (hok : ∀ v m c r b2, isOkE (client.uploadPart v m c r b2) = true) (content : List Nat) :
    (upload_parts client vault muid psize content).1
      = .ok ((chunksList psize content).map treeHashD) := by
  unfold upload_parts
  rw [if_neg (by omega)]
  exact uploadLoop_ok client vault muid psize hp hok content.length content 0 (le_refl _)

theorem uploadLoop_no_abort (client : Client) (vault muid : String) (psize : Nat) :
    ∀ (fuel : Nat) (partno : Nat) (rest : List Nat),
      ∀ e ∈ (uploadLoop client vault muid psize fuel partno rest).2, e.isAbort = false
  | fuel, _, [], e, he => by cases fuel <;> simp [uploadLoop] at he
  | 0, _, x :: xs, e, he => by simp [uploadLoop] at he
  | fuel + 1, partno, x :: xs, e, he => by
    simp only [uploadLoop] at he
    split at he
    next err heq => simp at he
    next d heq =>
      split at he
      next err2 heq2 =>
        simp at he
        subst he
        rfl
      next ck heq2 =>
        simp only [List.mem_cons] at he
        rcases he with he | he
        · subst he
          rfl
        · exact uploadLoop_no_abort client vault muid psize fuel (partno + 1)
            ((x :: xs).drop psize) e he

theorem upload_parts_no_abort (client : Client) (vault muid : String) (psize : Nat)
    (content : List Nat) :
    ∀ e ∈ (upload_parts client vault muid psize content).2, e.isAbort = false := by
  intro e he
  unfold upload_parts at he
  by_cases hp : psize = 0
  · rw [if_pos hp] at he
    simp at he
  · rw [if_neg hp] at he
    exact uploadLoop_no_abort client vault muid psize content.length 0 content e he

theorem upload_file_no_abort (client : Client) (vault desc : String) (psize : Nat)
    (content : List Nat) :
    ∀ e ∈ (upload_file client vault desc psize content).2, e.isAbort = false := by
  intro e he
  simp only [upload_file] at he
  split at he
  next err heq =>
    simp at he
    subst he
    rfl
  next muid heq =>
    split at he
    next err2 heq2 =>
      simp only [List.mem_cons] at he
      rcases he with he | he
      · subst he
        rfl
      · exact upload_parts_no_abort client vault muid psize content e he
    next hashlist heq2 =>
      split at he
      next err3 heq3 =>
        simp only [List.mem_cons] at he
        rcases he with he | he
        · subst he
          rfl
        · exact upload_parts_no_abort client vault muid psize content e he
      next totalSha heq3 =>
        split at he
        next err4 heq4 =>
          simp only [List.mem_cons, List.mem_append, List.mem_singleton,
            List.not_mem_nil, or_false] at he
          rcases he with he | he | he
          · subst he
            rfl
          · exact upload_parts_no_abort client vault muid psize content e he
          · subst he
            rfl
        next aid heq4 =>
          simp only [List.mem_cons, List.mem_append, List.mem_singleton,
            List.not_mem_nil, or_false] at he
          rcases he with he | he | he
          · subst he
            rfl
          · exact upload_parts_no_abort client vault muid psize content e he
          · subst he
            rfl

/-- The byte-range strings the upload loop sends, as a function of the
part size, the first part number and the remaining length only. -/
def rangesLen : Nat → Nat → Nat → Nat → List String
  | 0, _, _, _ => []
  | fuel + 1, psize, partno, n =>
    if n = 0 then []
    else wireRange (partno * psize) (partno * psize + min psize n)
      :: rangesLen fuel psize (partno + 1) (n - psize)

theorem uploadLoop_ranges (client : Client) (vault muid : String) (psize : Nat)
    (hp : 0 < psize)
    (hok : ∀ v m c r b2, isOkE (client.uploadPart v m c r b2) = true) :
    ∀ (fuel partno : Nat) (rest : List Nat),
      rangesOf (uploadLoop client vault muid psize fuel partno rest).2
        = rangesLen fuel psize partno rest.length
  | 0, partno, rest => by cases rest <;> simp [uploadLoop, rangesLen, rangesOf]
  | fuel + 1, partno, [] => by simp [uploadLoop, rangesLen, rangesOf]
  | fuel + 1, partno, x :: xs => by
    have hchunkne := take_ne_nil_of_pos psize hp (x :: xs) (by simp)
    obtain ⟨ck, hck⟩ := isOkE_exists (hok vault muid
      (hexDigest (treeHashD ((x :: xs).take psize)))
      (wireRange (partno * psize) (partno * psize + ((x :: xs).take psize).length))
      ((x :: xs).take psize))
    have hrec := uploadLoop_ranges client vault muid psize hp hok fuel (partno + 1)
      ((x :: xs).drop psize)
    simp only [uploadLoop, sha256treeBytes_ok _ hchunkne, hck]
    simp only [rangesOf, List.filterMap_cons] at hrec ⊢
    rw [hrec]
    show wireRange (partno * psize) (partno * psize + ((x :: xs).take psize).length)
        :: rangesLen fuel psize (partno + 1) ((x :: xs).drop psize).length
      = rangesLen (fuel + 1) psize partno (x :: xs).length
    simp only [rangesLen]
    rw [if_neg (by simp)]
    rw [List.length_take, List.length_drop]

theorem combineLevels_single (x : Digest) : combineLevels [x] = [x] := rfl

theorem sha256treeBytes_not_valueError (b : List Nat) (msg : String) :
    sha256treeBytes b ≠ .error (.valueError msg) := by
  unfold sha256treeBytes combine_sha256
  split <;> simp

theorem replicate_ne_nil {α : Type} (n : Nat) (hn : n ≠ 0) (a : α) :
    List.replicate n a ≠ [] := by
  intro h
  have hlen := congrArg List.length h
  rw [List.length_replicate, List.length_nil] at hlen
  exact hn hlen

/-- A remote client on which every operation succeeds. -/
def clientOk : Client :=
  ⟨fun _ _ _ => .ok "mu", fun _ _ _ _ _ => .ok "ck", fun _ _ _ _ => .ok "arch"⟩

/-- A remote client on which initiation succeeds and the upload-part call
for the second part (byte range `bytes 1-1/*` at part size 1) fails. -/
def clientFailPart2 : Client :=
  ⟨fun _ _ _ => .ok "mu",
   fun _ _ _ r _ => if r = "bytes 1-1/*" then .error (.remoteError "boom") else .ok "ck",
   fun _ _ _ _ => .ok "arch"⟩

/-- A remote client on which initiation and every upload-part call succeed
and the complete-multipart-upload call fails. -/
def clientFailComplete : Client :=
  ⟨fun _ _ _ => .ok "mu",
   fun _ _ _ _ _ => .ok "ck",
   fun _ _ _ _ => .error (.remoteError "cboom")⟩

/-! ## Claims -/

/-- C1, counterexample.  On part size 1 and file content `[0, 1]` with an
all-success client, the root combined from the collected per-part hashes
differs from the whole-file tree hash recomputed from the bytes on disk,
yet `upload_file` succeeds, invokes the remote complete operation, and
does not fail with `VerificationMismatch` — so the orchestrator does not
assert the two root hashes agree before completing. -/
theorem c1_counterexample :
    (upload_parts clientOk "v" "mu" 1 [0, 1]).1 = .ok [sha256 [0], sha256 [1]] ∧
    combine_sha256 [sha256 [0], sha256 [1]] ≠ sha256treeBytes [0, 1] ∧
    (upload_file clientOk "v" "" 1 [0, 1]).1 = .ok "arch" ∧
    (upload_file clientOk "v" "" 1 [0, 1]).1 ≠ .error .verificationMismatch ∧
    ((upload_file clientOk "v" "" 1 [0, 1]).2.any fun e =>
      match e with
      | .completeCall _ _ _ _ => true
      | _ => false) = true :=
  ⟨by decide, by decide, by decide, by decide, by decide⟩

/-- C1, amended.  After all parts are uploaded, `upload_file` combines the
collected per-part hashes into the root hash and calls the remote
complete operation with its hex form unconditionally: it never recomputes
the whole-file tree hash from disk, never compares two root hashes, and
has no `VerificationMismatch` path; whenever the remote operations
succeed, the last remote call is the completion carrying the combined
root, whether or not that root equals the whole-file tree hash. -/
theorem c1_amended_unconditional_completion (client : Client)
    (vault desc muid aid : String) (psize : Nat) (content : List Nat)
    (hp : 0 < psize) (hc : content ≠ [])
    (hinit : client.initiate vault desc psize = .ok muid)
    (hok : ∀ v m c r b, isOkE (client.uploadPart v m c r b) = true)
    (hcomp : ∀ v m c s, client.complete v m c s = .ok aid) :
    (upload_file client vault desc psize content).1 = .ok aid ∧
    (upload_file client vault desc psize content).2.getLast? =
      some (.completeCall vault muid
        (hexDigest (rootD ((chunksList psize content).map treeHashD))) content.length) := by
  have hparts := upload_parts_ok client vault muid psize hp hok content
  have hne : (chunksList psize content).map treeHashD ≠ [] := by
    simpa using chunksList_ne_nil psize hp content hc
  have hcomb := combine_ok _ hne
  refine ⟨?_, ?_⟩
  · simp only [upload_file, hinit, hparts, hcomb, hcomp]
  · simp only [upload_file, hinit, hparts, hcomb, hcomp]
    rw [← List.cons_append]
    exact List.getLast?_concat _

/-- C1, witness for the amended claim at part size 1 and content `[0, 1]`. -/
theorem c1_amended_witness :
    (0 : Nat) < 1 ∧ ([0, 1] : List Nat) ≠ [] ∧
    ((upload_file clientOk "v" "" 1 [0, 1]).1 = .ok "arch" ∧
     (upload_file clientOk "v" "" 1 [0, 1]).2.getLast? =
       some (.completeCall "v" "mu"
         (hexDigest (rootD ((chunksList 1 [0, 1]).map treeHashD)))
         ([0, 1] : List Nat).length)) :=
  ⟨by decide, by decide,
    c1_amended_unconditional_completion clientOk "v" "" "mu" "arch" 1 [0, 1]
      (by decide) (by decide) rfl (fun _ _ _ _ _ => rfl) (fun _ _ _ _ => rfl)⟩

/-- C2, counterexample.  With a client whose upload-part call fails on the
second of three parts, initiation has succeeded, the failure occurs after
it, and `upload_file` propagates the error — but no abort call appears in
the trace of remote operations, so the abort-upload operation is not
invoked on failure. -/
theorem c2_counterexample :
    (upload_file clientFailPart2 "v" "" 1 [0, 1, 2]).1 = .error (.remoteError "boom") ∧
    Event.initiateCall "v" "" 1 ∈ (upload_file clientFailPart2 "v" "" 1 [0, 1, 2]).2 ∧
    ∀ e ∈ (upload_file clientFailPart2 "v" "" 1 [0, 1, 2]).2, e.isAbort = false :=
  ⟨by decide, by decide, by decide⟩

/-- C2, amended.  For every failure occurring after initiation has
succeeded, `upload_file` propagates the original error to its caller
unchanged, but never invokes the remote abort operation.  The operations
after initiation are exactly the part uploads, the combining of the
collected hashes, and the completion call, so the three implications
cover every post-initiation failure; and the trace of any run of
`upload_file` contains no abort call at all. -/
theorem c2_amended_propagates_without_abort (client : Client)
    (vault desc muid : String) (psize : Nat) (content : List Nat) (err : PyErr)
    (hinit : client.initiate vault desc psize = .ok muid) :
    ((upload_parts client vault muid psize content).1 = .error err →
      (upload_file client vault desc psize content).1 = .error err) ∧
    (∀ hashlist, (upload_parts client vault muid psize content).1 = .ok hashlist →
      combine_sha256 hashlist = .error err →
      (upload_file client vault desc psize content).1 = .error err) ∧
    (∀ hashlist total, (upload_parts client vault muid psize content).1 = .ok hashlist →
      combine_sha256 hashlist = .ok total →
      client.complete vault muid (hexDigest total) content.length = .error err →
      (upload_file client vault desc psize content).1 = .error err) ∧
    (∀ e ∈ (upload_file client vault desc psize content).2, e.isAbort = false) := by
  refine ⟨?_, ?_, ?_, upload_file_no_abort client vault desc psize content⟩
  · intro hfail
    simp only [upload_file, hinit, hfail]
  · intro hashlist hparts hcomb
    simp only [upload_file, hinit, hparts, hcomb]
  · intro hashlist total hparts hcomb hcompl
    simp only [upload_file, hinit, hparts, hcomb, hcompl]

/-- C2, witness for the amended claim: a client failing on the second of
three parts, and a client whose complete call fails after all parts
uploaded — in both runs the original error is the result and no abort
call is made. -/
theorem c2_amended_witness :
    clientFailPart2.initiate "v" "" 1 = .ok "mu" ∧
    (upload_parts clientFailPart2 "v" "mu" 1 [0, 1, 2]).1 = .error (.remoteError "boom") ∧
    (upload_file clientFailPart2 "v" "" 1 [0, 1, 2]).1 = .error (.remoteError "boom") ∧
    clientFailComplete.initiate "v" "" 1 = .ok "mu" ∧
    (upload_parts clientFailComplete "v" "mu" 1 [0, 1]).1 = .ok [sha256 [0], sha256 [1]] ∧
    combine_sha256 [sha256 [0], sha256 [1]] = .ok (rootD [sha256 [0], sha256 [1]]) ∧
    clientFailComplete.complete "v" "mu" (hexDigest (rootD [sha256 [0], sha256 [1]])) 2
      = .error (.remoteError "cboom") ∧
    (upload_file clientFailComplete "v" "" 1 [0, 1]).1 = .error (.remoteError "cboom") ∧
    (∀ e ∈ (upload_file clientFailComplete "v" "" 1 [0, 1]).2, e.isAbort = false) :=
  ⟨rfl, by decide,
    (c2_amended_propagates_without_abort clientFailPart2 "v" "" "mu" 1 [0, 1, 2]
      (.remoteError "boom") rfl).1 (by decide),
    rfl, by decide, by decide, rfl,
    (c2_amended_propagates_without_abort clientFailComplete "v" "" "mu" 1 [0, 1]
      (.remoteError "cboom") rfl).2.2.1 [sha256 [0], sha256 [1]]
      (rootD [sha256 [0], sha256 [1]]) (by decide) (by decide) rfl,
    (c2_amended_propagates_without_abort clientFailComplete "v" "" "mu" 1 [0, 1]
      (.remoteError "cboom") rfl).2.2.2⟩

/-- C3.  For every nonempty file content and every part size that is a
power-of-two multiple of the 1 MiB chunk size, the per-part tree hashes
collected by `upload_parts` combine, in order, to exactly the tree hash
the Hasher computes directly over the whole content. -/
theorem c3_parts_root_eq_whole_file (client : Client) (vault muid : String)
    (j psize : Nat) (content : List Nat)
    (hpsize : psize = 2 ^ 20 * 2 ^ j) (hcontent : content ≠ [])
    (hok : ∀ v m c r b, isOkE (client.uploadPart v m c r b) = true) :
    ∃ shas, (upload_parts client vault muid psize content).1 = .ok shas ∧
      combine_sha256 shas = sha256treeBytes content ∧
      sha256treeBytes content = .ok (treeHashD content) := by
  have hp : 0 < psize := by rw [hpsize]; positivity
  refine ⟨(chunksList psize content).map treeHashD,
    upload_parts_ok client vault muid psize hp hok content, ?_,
    sha256treeBytes_ok content hcontent⟩
  rw [sha256treeBytes_ok content hcontent]
  have hne : (chunksList psize content).map treeHashD ≠ [] := by
    simpa using chunksList_ne_nil psize hp content hcontent
  rw [combine_ok _ hne]
  subst hpsize
  rw [parts_combine_root j content hcontent]

/-- C3, witness: a file of exactly 2.5 times the part size (2621440 bytes
at part size 1 MiB). -/
theorem c3_witness :
    (1048576 : Nat) = 2 ^ 20 * 2 ^ 0 ∧ List.replicate 2621440 (0 : Nat) ≠ [] ∧
    (∃ shas,
      (upload_parts clientOk "vault" "muid" 1048576 (List.replicate 2621440 0)).1
        = .ok shas ∧
      combine_sha256 shas = sha256treeBytes (List.replicate 2621440 0) ∧
      sha256treeBytes (List.replicate 2621440 0)
        = .ok (treeHashD (List.replicate 2621440 0))) :=
  ⟨by norm_num, replicate_ne_nil 2621440 (by norm_num) 0,
    c3_parts_root_eq_whole_file clientOk "vault" "muid" 0 1048576
      (List.replicate 2621440 0) (by norm_num)
      (replicate_ne_nil 2621440 (by norm_num) 0) (fun _ _ _ _ _ => rfl)⟩

/-- C4.  `abort_uploads` resolves the free name `client`, which is bound
in no enclosing scope of backup.py, so every invocation raises
`NameError('client')` before listing or aborting anything: the listed
sessions are never aborted. -/
theorem c4_abort_uploads_raises_name_error :
    abort_uploads = .error (.nameError "client") := by decide

/-- C5.  At every combiner level of odd length the unpaired last node is
carried forward unchanged, and in particular
`combine([h1, h2, h3]) = combine([sha256(h1 ++ h2), h3])` for all hashes. -/
theorem c5_odd_level_carries_last :
    (∀ l : List Digest, l.length % 2 = 1 → (reduceLevel l).getLast? = l.getLast?) ∧
    (∀ h1 h2 h3 : Digest,
      combine_sha256 [h1, h2, h3] = combine_sha256 [sha256 (h1 ++ h2), h3]) := by
  constructor
  · exact reduceLevel_getLast_odd
  · intro h1 h2 h3
    have hstep := combineLevels_step [h1, h2, h3]
    rw [if_neg (by simp)] at hstep
    have hred : reduceLevel [h1, h2, h3] = [sha256 (h1 ++ h2), h3] := by
      simp [reduceLevel]
    unfold combine_sha256
    rw [hstep, hred]

/-- C5, witness: the odd-level carry at the concrete three-element list
`[[0], [1], [2]]`. -/
theorem c5_witness :
    (reduceLevel [[0], [1], [2]]).getLast? = ([[0], [1], [2]] : List Digest).getLast? :=
  c5_odd_level_carries_last.1 [[0], [1], [2]] (by decide)

/-- C6.  `combine([h1, h2])` is the SHA-256 of the concatenation of the
two raw digests in that order for all hashes, and at the concrete digests
`sha256 [0]`, `sha256 [1]` it differs from the hash of the swapped
concatenation. -/
theorem c6_pair_order :
    (∀ h1 h2 : Digest, combine_sha256 [h1, h2] = .ok (sha256 (h1 ++ h2))) ∧
    combine_sha256 [sha256 [0], sha256 [1]] ≠ .ok (sha256 (sha256 [1] ++ sha256 [0])) := by
  constructor
  · intro h1 h2
    have hstep := combineLevels_step [h1, h2]
    rw [if_neg (by simp)] at hstep
    have hred : reduceLevel [h1, h2] = [sha256 (h1 ++ h2)] := by simp [reduceLevel]
    unfold combine_sha256
    rw [hstep, hred, combineLevels_single]
  · decide

/-- C7, counterexample.  On the empty hash list the combiner fails with
the generic out-of-bounds `IndexError` of `output[0]`, not with the
designated `EmptyInput` error kind. -/
theorem c7_counterexample :
    combine_sha256 ([] : List Digest) = .error .indexError ∧
    combine_sha256 ([] : List Digest) ≠ .error .emptyInput :=
  ⟨rfl, by decide⟩

/-- C7, amended.  The combiner fails on a zero-length sequence with the
generic out-of-bounds indexing error (there is no designated `EmptyInput`
error), and a single-element input returns that element unchanged. -/
theorem c7_amended_empty_raises_index_error :
    combine_sha256 ([] : List Digest) = .error .indexError ∧
    ∀ h : Digest, combine_sha256 [h] = .ok h := by
  refine ⟨rfl, fun h => ?_⟩
  unfold combine_sha256
  rw [combineLevels_single]

/-- C8.  `sha256tree` accepts exactly the three input forms: a value of
any other runtime type fails with the designated `InvalidSourceKind`
error (the `ValueError` the source raises), while a stream, a byte buffer
or a path never produces that error. -/
theorem c8_source_kinds :
    (∀ (fs : String → Option (List Nat)) (d : String),
      sha256tree fs (.other d) = .error InvalidSourceKind) ∧
    (∀ (fs : String → Option (List Nat)) (b : List Nat),
      sha256tree fs (.stream b) ≠ .error InvalidSourceKind) ∧
    (∀ (fs : String → Option (List Nat)) (b : List Nat),
      sha256tree fs (.bytes b) ≠ .error InvalidSourceKind) ∧
    (∀ (fs : String → Option (List Nat)) (p : String),
      sha256tree fs (.str p) ≠ .error InvalidSourceKind) := by
  refine ⟨fun fs d => rfl, fun fs b => ?_, fun fs b => ?_, fun fs p => ?_⟩
  · exact sha256treeBytes_not_valueError b _
  · exact sha256treeBytes_not_valueError b _
  · cases hfs : fs p with
    | some c =>
      simp only [sha256tree, hfs]
      exact sha256treeBytes_not_valueError c _
    | none => simp [sha256tree, hfs, InvalidSourceKind]

/-- C9.  A 3 MiB file at part size 1 MiB yields exactly three per-part
hashes, and the upload-part calls carry, in order, the wire ranges
`bytes 0-1048575/*`, `bytes 1048576-2097151/*`, `bytes 2097152-3145727/*`,
which are precisely the wire forms of the byte ranges `[0, 1048576)`,
`[1048576, 2097152)` and `[2097152, 3145728)`. -/
theorem c9_three_parts (client : Client) (vault muid : String) (content : List Nat)
    (hlen : content.length = 3145728)
    (hok : ∀ v m c r b, isOkE (client.uploadPart v m c r b) = true) :
    ∃ shas, (upload_parts client vault muid 1048576 content).1 = .ok shas ∧
      shas.length = 3 ∧
      rangesOf (upload_parts client vault muid 1048576 content).2
        = ["bytes 0-1048575/*", "bytes 1048576-2097151/*", "bytes 2097152-3145727/*"] ∧
      ["bytes 0-1048575/*", "bytes 1048576-2097151/*", "bytes 2097152-3145727/*"]
        = [wireRange 0 1048576, wireRange 1048576 2097152, wireRange 2097152 3145728] := by
  have hp : (0 : Nat) < 1048576 := by norm_num
  have hcne : content ≠ [] := by
    intro hcnil
    rw [hcnil] at hlen
    simp at hlen
  refine ⟨(chunksList 1048576 content).map treeHashD,
    upload_parts_ok client vault muid 1048576 hp hok content, ?_, ?_, by decide⟩
  · rw [List.length_map, chunksList_cons _ hp content hcne]
    have h1 : content.drop 1048576 ≠ [] := by
      intro hcnil
      have := congrArg List.length hcnil
      rw [List.length_drop, hlen] at this
      simp at this
    rw [chunksList_cons _ hp _ h1]
    have h2 : (content.drop 1048576).drop 1048576 ≠ [] := by
      intro hcnil
      have := congrArg List.length hcnil
      rw [List.length_drop, List.length_drop, hlen] at this
      simp at this
    rw [chunksList_cons _ hp _ h2]
    have h3 : ((content.drop 1048576).drop 1048576).drop 1048576 = [] := by
      apply List.eq_nil_of_length_eq_zero
      rw [List.length_drop, List.length_drop, List.length_drop, hlen]
    rw [h3, chunksList_nil]
    rfl
  · unfold upload_parts
    rw [if_neg (by norm_num),
      uploadLoop_ranges client vault muid 1048576 hp hok content.length 0 content, hlen]
    decide

/-- C9, witness at the concrete 3 MiB content of zero bytes. -/
theorem c9_witness :
    (List.replicate 3145728 (0 : Nat)).length = 3145728 ∧
    (∃ shas,
      (upload_parts clientOk "vault" "muid" 1048576 (List.replicate 3145728 0)).1
        = .ok shas ∧
      shas.length = 3 ∧
      rangesOf (upload_parts clientOk "vault" "muid" 1048576 (List.replicate 3145728 0)).2
        = ["bytes 0-1048575/*", "bytes 1048576-2097151/*", "bytes 2097152-3145727/*"] ∧
      ["bytes 0-1048575/*", "bytes 1048576-2097151/*", "bytes 2097152-3145727/*"]
        = [wireRange 0 1048576, wireRange 1048576 2097152, wireRange 2097152 3145728]) :=
  ⟨List.length_replicate 3145728 0,
    c9_three_parts clientOk "vault" "muid" (List.replicate 3145728 0)
      (List.length_replicate 3145728 0) (fun _ _ _ _ _ => rfl)⟩

/-- C10.  On every empty byte source — an empty stream, an empty buffer,
or a path naming a zero-byte file — `sha256tree` produces no leaf hashes
and the combiner's `output[0]` fails with the out-of-bounds `IndexError`,
which is not one of the designated error kinds. -/
theorem c10_empty_source_out_of_bounds :
    (∀ fs : String → Option (List Nat), sha256tree fs (.stream []) = .error .indexError) ∧
    (∀ fs : String → Option (List Nat), sha256tree fs (.bytes []) = .error .indexError) ∧
    (∀ (fs : String → Option (List Nat)) (p : String), fs p = some [] →
      sha256tree fs (.str p) = .error .indexError) ∧
    PyErr.indexError ≠ PyErr.emptyInput ∧ PyErr.indexError ≠ InvalidSourceKind := by
  have hbytes : sha256treeBytes [] = .error .indexError := rfl
  refine ⟨fun fs => hbytes, fun fs => hbytes, fun fs p hfs => ?_, by decide, by decide⟩
  simp only [sha256tree, hfs]
  exact hbytes

/-- C10, witness: a file system mapping every path to a zero-byte file. -/
theorem c10_witness :
    (fun _ : String => some ([] : List Nat)) "f" = some ([] : List Nat) ∧
    sha256tree (fun _ : String => some ([] : List Nat)) (.str "f") = .error .indexError :=
  ⟨rfl, c10_empty_source_out_of_bounds.2.2.1 (fun _ => some []) "f" rfl⟩

end Backup
